import Mathlib

/-!
Verification of the core solver of the `jump` peg-jump puzzle repository
(`src/board.py`, `src/solver.py`, `src/step.py`, `src/enumerations.py`).

The Python code is shallowly embedded:

* a Python `set` of node indices becomes a `Finset ℕ`; iteration over a set
  is modelled as iteration over its elements in increasing order, which is
  the CPython iteration order for the small non-negative integers used by
  the boards in this repository;
* a Python `dict` becomes an association list (`List (ℕ × α)`), preserving
  insertion order; `d[k]` becomes `List.lookup` with an explicit `KeyError`
  when the key is absent;
* code that can raise returns `Except PyError α`; the unbounded `while`
  loop of the search executive takes an explicit fuel argument and reports
  exhausted fuel as a distinguished `ExecError.fuelOut`.
-/

namespace Jump

/-- Error taxonomy for the embedding.  `keyError`, `typeError` and
`indexError` are the Python built-in exceptions the embedded code can
actually raise.  `invalidTransition` is the distinct error *named by the
spec* for `transit`; no such class exists in the repository
(`exception.py` defines only `PuzzleException`, which is never raised by
the core solver code). -/
inductive PyError where
  | keyError
  | typeError
  | indexError
  | invalidTransition
  deriving DecidableEq

/-- Equality of embedded fallible results is decidable; used to evaluate
the embedded code on concrete inputs. -/
instance {ε α : Type} [DecidableEq ε] [DecidableEq α] : DecidableEq (Except ε α) :=
  fun x y =>
    match x, y with
    | .error e, .error f =>
      match decEq e f with
      | isTrue h => isTrue (by rw [h])
      | isFalse h => isFalse (by intro hc; cases hc; exact h rfl)
    | .ok a, .ok c =>
      match decEq a c with
      | isTrue h => isTrue (by rw [h])
      | isFalse h => isFalse (by intro hc; cases hc; exact h rfl)
    | .error _, .ok _ => isFalse (by intro hc; cases hc)
    | .ok _, .error _ => isFalse (by intro hc; cases hc)

/-- A board state: the set of occupied nodes (`State = typing.Set[int]`). -/
abbrev State := Finset ℕ

/-- A path in `solver.py`: a list of states, the configured start state
first (`Path = typing.List[State]`). -/
abbrev Path := List State

/-- Auxiliary for `State.iter`: extract the elements in increasing order by
repeatedly removing the minimum, with the cardinality as decreasing fuel. -/
def State.iterGo : ℕ → State → List ℕ
  | 0, _ => []
  | n + 1, t =>
    match t.min with
    | none => []
    | some a => a :: State.iterGo n (t.erase a)

/-- CPython iterates a `set` of small non-negative integers in increasing
numeric order (hash of a small int is the int itself); this is the
iteration order of every board state appearing in this repository. -/
def State.iter (s : State) : List ℕ := State.iterGo s.card s

/-- The adjacency structure `transitions: Dict[int, Dict[int, int]]` as an
insertion-ordered association list of association lists. -/
abbrev Transitions := List (ℕ × List (ℕ × ℕ))

/-- The `Board` dataclass of `board.py`. -/
structure Board where
  transitions : Transitions
  nodes : ℕ
  edges : ℕ
  directions : ℕ
  deriving DecidableEq

/-- The `Step` dataclass of `step.py`. -/
structure Step where
  start_state : State
  move : ℕ
  jump : ℕ
  land : ℕ
  final_state : State
  deriving DecidableEq

/-- `Step.validate` of `step.py`: the four-part validity invariant
(membership of `move`, `jump`, `land` in the start and final states). -/
def Step.validate (s : Step) : Bool :=
  (decide (s.move ∈ s.start_state) && decide (s.jump ∈ s.start_state)
      && !decide (s.land ∈ s.start_state))
    && (!decide (s.move ∈ s.final_state) && !decide (s.jump ∈ s.final_state)
      && decide (s.land ∈ s.final_state))

/-- `Board.transit` of `board.py`: `self.transitions[node][direction]`.
Each of the two `dict` subscripts raises `KeyError` when the key is
absent. -/
def Board.transit (b : Board) (node direction : ℕ) : Except PyError ℕ :=
  match b.transitions.lookup node with
  | none => .error .keyError
  | some transits => match transits.lookup direction with
    | none => .error .keyError
    | some dest => .ok dest

/-- `Board.direction` of `board.py`.  The source iterates
`for dir in range(self.direction)`: `self.direction` is the *method*
itself, not the `directions` field, so CPython raises `TypeError`
("'method' object cannot be interpreted as an integer") before the first
loop iteration, for every input. -/
def Board.direction (_b : Board) (_loc_a _loc_b : ℕ) : Except PyError (Option ℕ) :=
  .error .typeError

/-- Modelled from the spec: `direction(a, b)` returns the unique direction
`d` in `[0, directions)` with `transit(a, d) = b`, and `none` both when no
such direction exists and when several do (ambiguous moves are not legal
single jumps).  This is the behaviour §4.1 of the spec assigns to
`Board.direction`; the source method itself is unrunnable (see
`Board.direction` above). -/
def directionSpec (b : Board) (loc_a loc_b : ℕ) : Option ℕ :=
  match (List.range b.directions).filter
      (fun d => decide (b.transit loc_a d = Except.ok loc_b)) with
  | [d] => some d
  | _ => none

/-- `Board.do_move` of `board.py`.  Returns `.ok none` where the source
returns `None` (move filtered out), and `.error .keyError` where one of
`self.transitions[jump]`, `final_state.remove(move)` or
`final_state.remove(jump)` would raise. -/
def Board.do_move (b : Board) (state : State) (move dir jump : ℕ) :
    Except PyError (Option Step) :=
  if jump ∉ state then .ok none
  else match b.transitions.lookup jump with
    | none => .error .keyError
    | some transits1 =>
      match transits1.lookup dir with
      | none => .ok none
      | some land =>
        if land ∈ state then .ok none
        else if move ∉ state then .error .keyError
        else if jump ∉ state.erase move then .error .keyError
        else .ok (some { start_state := state, move := move, jump := jump,
                         land := land,
                         final_state := insert land ((state.erase move).erase jump) })

/-- Inner comprehension of `Board.moves`: the `for dir, jump in
self.transitions[move].items()` loop, collecting each `do_move` result. -/
def movesInner (b : Board) (state : State) (move : ℕ) :
    List (ℕ × ℕ) → Except PyError (List (Option Step))
  | [] => .ok []
  | (dir, jump) :: rest => do
    let s ← b.do_move state move dir jump
    let l ← movesInner b state move rest
    pure (s :: l)

/-- Outer comprehension of `Board.moves`: the `for move in start_state`
loop; `self.transitions[move]` raises `KeyError` when `move` has no
entry. -/
def movesOuter (b : Board) (state : State) :
    List ℕ → Except PyError (List (Option Step))
  | [] => .ok []
  | move :: rest =>
    match b.transitions.lookup move with
    | none => .error .keyError
    | some ts => do
      let l1 ← movesInner b state move ts
      let l2 ← movesOuter b state rest
      pure (l1 ++ l2)

/-- `Board.moves` of `board.py`: the full comprehension over
`(move, dir, jump)` followed by `filter(lambda x: x is not None, ...)`.
No de-duplication is performed. -/
def Board.moves (b : Board) (start_state : State) : Except PyError (List Step) :=
  (movesOuter b start_state start_state.iter).map (List.filterMap id)

/-- The triangle board of spec scenario A and `test_moves_00`:
`transitions = {0:{0:1,1:2}, 1:{0:2,1:0}, 2:{0:0,1:1}}`. -/
def triangleBoard : Board :=
  { transitions := [(0, [(0, 1), (1, 2)]), (1, [(0, 2), (1, 0)]), (2, [(0, 0), (1, 1)])]
    nodes := 3, edges := 6, directions := 2 }

/-- The 4-node square board of spec scenarios B and C:
`transitions = {0:{0:1,1:3}, 1:{0:2,1:0}, 2:{0:3,1:1}, 3:{0:0,1:2}}`. -/
def squareBoard : Board :=
  { transitions := [(0, [(0, 1), (1, 3)]), (1, [(0, 2), (1, 0)]),
                    (2, [(0, 3), (1, 1)]), (3, [(0, 0), (1, 2)])]
    nodes := 4, edges := 8, directions := 2 }

example : triangleBoard.moves {0, 1} =
    .ok [⟨{0, 1}, 0, 1, 2, {2}⟩, ⟨{0, 1}, 1, 0, 2, {2}⟩] := by decide

/-- Inner loop of `moves` in `solver.py` (`for dir, node in
transits0.items()`), threading the accumulated `move_list` because the
`if next_state not in move_list` test de-duplicates against it.  The two
`.error .keyError` branches after the land test model
`next_state.remove(location)` and `next_state.remove(node)`. -/
def smInner (b : Board) (state : State) (location : ℕ) :
    List (ℕ × ℕ) → List State → Except PyError (List State)
  | [], acc => .ok acc
  | (dir, node) :: rest, acc =>
    if node ∉ state then smInner b state location rest acc
    else match b.transitions.lookup node with
      | none => .error .keyError
      | some transits1 =>
        match transits1.lookup dir with
        | none => smInner b state location rest acc
        | some land =>
          if land ∈ state then smInner b state location rest acc
          else if location ∉ state then .error .keyError
          else if node ∉ state.erase location then .error .keyError
          else
            let next_state := insert land ((state.erase location).erase node)
            if next_state ∈ acc then smInner b state location rest acc
            else smInner b state location rest (acc ++ [next_state])

/-- Outer loop of `moves` in `solver.py` (`for location in state`);
`board.transitions[location]` raises `KeyError` when absent. -/
def smOuter (b : Board) (state : State) :
    List ℕ → List State → Except PyError (List State)
  | [], acc => .ok acc
  | location :: rest, acc =>
    match b.transitions.lookup location with
    | none => .error .keyError
    | some transits0 => do
      let acc2 ← smInner b state location transits0 acc
      smOuter b state rest acc2

/-- `moves` of `solver.py`: returns the list of possible next *states*,
de-duplicated through the `if next_state not in move_list` test. -/
def solverMoves (state : State) (b : Board) : Except PyError (List State) :=
  smOuter b state state.iter []

/-- A picker (`solver.py` `Picker`): `None` models the `IndexError` the
list indexing would raise on an empty candidate list. -/
abbrev Picker := List Path → Option (Path × List Path)

/-- A checker (`solver.py` `Checker`), fallible because `path[-1]` and the
count checker's `moves` call can raise. -/
abbrev Checker := Path → Except PyError Bool

/-- `pick_next_depth_first` of `solver.py`:
`return candidates[-1], candidates[:-1]`. -/
def pick_next_depth_first (candidates : List Path) : Option (Path × List Path) :=
  match candidates.getLast? with
  | none => none
  | some p => some (p, candidates.dropLast)

/-- `pick_next_breadth_first` of `solver.py`:
`return candidates[0], candidates[1:]`. -/
def pick_next_breadth_first (candidates : List Path) : Option (Path × List Path) :=
  match candidates with
  | [] => none
  | p :: rest => some (p, rest)

/-- `next_paths` of `solver.py`: extend `path` by every state in
`moves(path[-1], board)`. -/
def next_paths (path : Path) (b : Board) : Except PyError (List Path) :=
  match path.getLast? with
  | none => .error .indexError
  | some st =>
    match solverMoves st b with
    | .error e => .error e
    | .ok l => .ok (l.map (fun next_state => path ++ [next_state]))

/-- `check_solution_state` of `solver.py`: `path[-1] == finish`. -/
def check_solution_state (path : Path) (finish : State) : Except PyError Bool :=
  match path.getLast? with
  | none => .error .indexError
  | some s => .ok (decide (s = finish))

/-- `check_solution_count` of `solver.py`:
`len(path[-1]) == final_count and len(moves(...)) == 0`; the Python `and`
short-circuits, so `moves` only runs when the count matches. -/
def check_solution_count (path : Path) (b : Board) (final_count : ℕ) :
    Except PyError Bool :=
  match path.getLast? with
  | none => .error .indexError
  | some s =>
    if s.card ≠ final_count then .ok false
    else match solverMoves s b with
      | .error e => .error e
      | .ok l => .ok (decide (l.length = 0))

/-- `SolutionScope` of `enumerations.py`. -/
inductive SolutionScope where
  | single
  | multiple
  deriving DecidableEq

/-- Outcome taxonomy of the embedded search executive: either a propagated
Python exception or exhaustion of the explicit fuel bounding the unbounded
`while` loop. -/
inductive ExecError where
  | py (e : PyError)
  | fuelOut
  deriving DecidableEq

/-- The `while len(candidates) > 0` loop of `solve_executive` in
`solver.py`, with explicit fuel.  Each iteration picks, prunes against
`min_pegs`, checks, and on failure extends the remaining candidates with
the expansions of the picked path. -/
def solveLoop (b : Board) (picker : Picker) (checker : Checker)
    (scope : SolutionScope) (min_pegs : ℕ) :
    ℕ → List Path → List Path → Except ExecError (List Path)
  | _, [], solutions => .ok solutions
  | 0, _ :: _, _ => .error .fuelOut
  | fuel + 1, c :: cs, solutions =>
    match picker (c :: cs) with
    | none => .error (.py .indexError)
    | some (next, rest) =>
      match next.getLast? with
      | none => .error (.py .indexError)
      | some fin =>
        if fin.card < min_pegs then
          solveLoop b picker checker scope min_pegs fuel rest solutions
        else
          match checker next with
          | .error e => .error (.py e)
          | .ok true =>
            if scope = SolutionScope.single then .ok (solutions ++ [next])
            else solveLoop b picker checker scope min_pegs fuel rest
              (solutions ++ [next])
          | .ok false =>
            match next_paths next b with
            | .error e => .error (.py e)
            | .ok exps =>
              solveLoop b picker checker scope min_pegs fuel (rest ++ exps)
                solutions

/-- `solve_executive` of `solver.py`: seed the candidate list with
`next_paths([start])` and run the loop with empty `solutions`. -/
def solve_executive (b : Board) (start : State) (picker : Picker)
    (checker : Checker) (scope : SolutionScope) (min_pegs : ℕ) (fuel : ℕ) :
    Except ExecError (List Path) :=
  match next_paths [start] b with
  | .error e => .error (.py e)
  | .ok candidates => solveLoop b picker checker scope min_pegs fuel candidates []

example : solverMoves {0, 1, 2} squareBoard = .ok [{0, 3}, {2, 3}] := by decide

example : solve_executive squareBoard {0, 1, 2} pick_next_depth_first
    (fun p => check_solution_state p {1}) SolutionScope.multiple 1 32 =
    .ok [[{0, 1, 2}, {2, 3}, {1}], [{0, 1, 2}, {0, 3}, {1}]] := by decide

section LookupLemmas

variable {α : Type}

lemma mem_of_lookup_eq_some {l : List (ℕ × α)} {k : ℕ} {v : α}
    (h : l.lookup k = some v) : (k, v) ∈ l := by
  induction l with
  | nil => simp [List.lookup] at h
  | cons p rest ih =>
    obtain ⟨a, bval⟩ := p
    by_cases hk : k = a
    · subst hk
      simp [List.lookup_cons] at h
      simp [h]
    · simp [List.lookup_cons, beq_false_of_ne hk] at h
      exact List.mem_cons_of_mem _ (ih h)

lemma lookup_eq_some_of_mem {l : List (ℕ × α)} {k : ℕ} {v : α}
    (hnd : (l.map Prod.fst).Nodup) (hm : (k, v) ∈ l) : l.lookup k = some v := by
  induction l with
  | nil => simp at hm
  | cons p rest ih =>
    obtain ⟨a, bval⟩ := p
    simp only [List.map_cons, List.nodup_cons] at hnd
    rcases List.mem_cons.mp hm with heq | hmem
    · cases heq
      simp [List.lookup_cons]
    · have hka : k ≠ a := by
        rintro rfl
        exact hnd.1 (List.mem_map.mpr ⟨(k, v), hmem, rfl⟩)
      simp only [List.lookup_cons, beq_false_of_ne hka]
      exact ih hnd.2 hmem

lemma lookup_eq_none_iff (l : List (ℕ × α)) (k : ℕ) :
    l.lookup k = none ↔ ∀ v, (k, v) ∉ l := by
  constructor
  · intro h v hv
    induction l with
    | nil => simp at hv
    | cons p rest ih =>
      obtain ⟨a, bval⟩ := p
      by_cases hk : k = a
      · subst hk
        simp [List.lookup_cons] at h
      · simp only [List.lookup_cons, beq_false_of_ne hk] at h
        rcases List.mem_cons.mp hv with heq | hmem
        · exact hk (congrArg Prod.fst heq)
        · exact ih h hmem
  · intro h
    cases hl : l.lookup k with
    | none => rfl
    | some v => exact absurd (mem_of_lookup_eq_some hl) (h v)

end LookupLemmas

/-- Characterisation of a successful `Board.do_move`: the guards the source
checks (or implicitly relies on through `set.remove`) all hold, and the
produced `Step` records exactly the computed jump. -/
lemma do_move_ok_some {b : Board} {state : State} {move dir jump : ℕ} {s : Step}
    (h : b.do_move state move dir jump = .ok (some s)) :
    s.start_state = state ∧ s.move = move ∧ s.jump = jump ∧
    move ∈ state ∧ jump ∈ state.erase move ∧ s.land ∉ state ∧
    s.final_state = insert s.land ((state.erase move).erase jump) := by
  unfold Board.do_move at h
  split at h
  · exact absurd h (by simp)
  · rename_i hjump
    rw [not_not] at hjump
    split at h
    · exact absurd h (by simp)
    · split at h
      · exact absurd h (by simp)
      · rename_i land _ _
        split at h
        · exact absurd h (by simp)
        · rename_i hland
          split at h
          · exact absurd h (by simp)
          · rename_i hmove
            rw [not_not] at hmove
            split at h
            · exact absurd h (by simp)
            · rename_i hje
              rw [not_not] at hje
              injection h with h
              injection h with h
              subst h
              exact ⟨rfl, rfl, rfl, hmove, hje, hland, rfl⟩

/-- Every `some` element a successful `movesInner` run returns comes from a
successful `do_move` on one of the listed `(dir, jump)` pairs. -/
lemma movesInner_mem {b : Board} {state : State} {move : ℕ} :
    ∀ {ts : List (ℕ × ℕ)} {ol : List (Option Step)},
      movesInner b state move ts = .ok ol →
      ∀ os ∈ ol, ∀ s : Step, os = some s →
        ∃ dir jump, b.do_move state move dir jump = .ok (some s) := by
  intro ts
  induction ts with
  | nil =>
    intro ol h os hos
    simp only [movesInner] at h
    injection h with h
    subst h
    simp at hos
  | cons p rest ih =>
    intro ol h os hos s hs
    obtain ⟨dir, jump⟩ := p
    simp only [movesInner, bind, Except.bind] at h
    cases hdm : b.do_move state move dir jump with
    | error e => rw [hdm] at h; exact absurd h (by simp)
    | ok o =>
      rw [hdm] at h
      cases hrec : movesInner b state move rest with
      | error e => rw [hrec] at h; exact absurd h (by simp)
      | ok l =>
        rw [hrec] at h
        simp only [pure, Except.pure] at h
        injection h with h
        subst h
        rcases List.mem_cons.mp hos with rfl | hmem
        · exact ⟨dir, jump, hs ▸ hdm⟩
        · exact ih hrec os hmem s hs

/-- Every `some` element a successful `movesOuter` run returns comes from a
successful `do_move`. -/
lemma movesOuter_mem {b : Board} {state : State} :
    ∀ {locs : List ℕ} {ol : List (Option Step)},
      movesOuter b state locs = .ok ol →
      ∀ os ∈ ol, ∀ s : Step, os = some s →
        ∃ move dir jump, b.do_move state move dir jump = .ok (some s) := by
  intro locs
  induction locs with
  | nil =>
    intro ol h os hos
    simp only [movesOuter] at h
    injection h with h
    subst h
    simp at hos
  | cons move rest ih =>
    intro ol h os hos s hs
    simp only [movesOuter] at h
    cases hlk : b.transitions.lookup move with
    | none => rw [hlk] at h; exact absurd h (by simp)
    | some ts =>
      rw [hlk] at h
      simp only [bind, Except.bind] at h
      cases h1 : movesInner b state move ts with
      | error e => rw [h1] at h; exact absurd h (by simp)
      | ok l1 =>
        rw [h1] at h
        cases h2 : movesOuter b state rest with
        | error e => rw [h2] at h; exact absurd h (by simp)
        | ok l2 =>
          rw [h2] at h
          simp only [pure, Except.pure] at h
          injection h with h
          subst h
          rcases List.mem_append.mp hos with hmem | hmem
          · obtain ⟨dir, jump, hdm⟩ := movesInner_mem h1 os hmem s hs
            exact ⟨move, dir, jump, hdm⟩
          · exact ih h2 os hmem s hs

/-- Every `Step` in a successful `Board.moves` output comes from a
successful `do_move` on the given state. -/
lemma moves_mem {b : Board} {state : State} {l : List Step}
    (h : b.moves state = .ok l) :
    ∀ s ∈ l, ∃ move dir jump, b.do_move state move dir jump = .ok (some s) := by
  intro s hs
  unfold Board.moves at h
  cases ho : movesOuter b state state.iter with
  | error e => rw [ho] at h; exact absurd h (by simp [Except.map])
  | ok ol =>
    rw [ho] at h
    simp only [Except.map] at h
    injection h with h
    subst h
    obtain ⟨os, hos, hid⟩ := List.mem_filterMap.mp hs
    exact movesOuter_mem ho os hos s (by simpa using hid)

/-- Cardinality consequence of a successful `do_move`: removing the two
occupied nodes `move` and `jump` and adding the unoccupied `land` shrinks
the state by exactly one peg. -/
lemma do_move_card {b : Board} {state : State} {move dir jump : ℕ} {s : Step}
    (h : b.do_move state move dir jump = .ok (some s)) :
    s.start_state = state ∧ s.final_state.card + 1 = state.card := by
  obtain ⟨hstart, -, -, hmove, hjumpA, hland, hfinal⟩ := do_move_ok_some h
  refine ⟨hstart, ?_⟩
  have hA : (state.erase move).card + 1 = state.card :=
    Finset.card_erase_add_one hmove
  have hB : ((state.erase move).erase jump).card + 1 = (state.erase move).card :=
    Finset.card_erase_add_one hjumpA
  have hlandB : s.land ∉ (state.erase move).erase jump := fun hc =>
    hland (Finset.mem_of_mem_erase (Finset.mem_of_mem_erase hc))
  have hI : (insert s.land ((state.erase move).erase jump)).card =
      ((state.erase move).erase jump).card + 1 :=
    Finset.card_insert_of_not_mem hlandB
  rw [hfinal, hI]
  omega

/-- The `move_list` invariant of `smInner`: a successful run only appends
states one peg smaller than the input state. -/
lemma smInner_card {b : Board} {state : State} {location : ℕ} :
    ∀ {ts : List (ℕ × ℕ)} {acc out : List State},
      smInner b state location ts acc = .ok out →
      (∀ x ∈ acc, x.card + 1 = state.card) →
      ∀ x ∈ out, x.card + 1 = state.card := by
  intro ts
  induction ts with
  | nil =>
    intro acc out h hacc
    simp only [smInner] at h
    injection h with h
    subst h
    exact hacc
  | cons p rest ih =>
    intro acc out h hacc
    obtain ⟨dir, node⟩ := p
    simp only [smInner] at h
    split at h
    · exact ih h hacc
    · rename_i hnode
      rw [not_not] at hnode
      split at h
      · exact absurd h (by simp)
      · split at h
        · exact ih h hacc
        · split at h
          · exact ih h hacc
          · split at h
            · exact absurd h (by simp)
            · split at h
              · exact absurd h (by simp)
              · split at h
                · exact ih h hacc
                · rename_i land _ hland hlocn hnen _
                  rw [not_not] at hlocn hnen
                  refine ih h ?_
                  intro x hx
                  rcases List.mem_append.mp hx with hx | hx
                  · exact hacc x hx
                  · have hxeq : x = insert land ((state.erase location).erase node) := by
                      simpa using hx
                    subst hxeq
                    have hA : (state.erase location).card + 1 = state.card :=
                      Finset.card_erase_add_one hlocn
                    have hB : ((state.erase location).erase node).card + 1 =
                        (state.erase location).card :=
                      Finset.card_erase_add_one hnen
                    have hlandB : land ∉ (state.erase location).erase node := fun hc =>
                      hland (Finset.mem_of_mem_erase (Finset.mem_of_mem_erase hc))
                    rw [Finset.card_insert_of_not_mem hlandB]
                    omega

/-- Lifting the `smInner` invariant through the outer loop of
`solver.moves`. -/
lemma smOuter_card {b : Board} {state : State} :
    ∀ {locs : List ℕ} {acc out : List State},
      smOuter b state locs acc = .ok out →
      (∀ x ∈ acc, x.card + 1 = state.card) →
      ∀ x ∈ out, x.card + 1 = state.card := by
  intro locs
  induction locs with
  | nil =>
    intro acc out h hacc
    simp only [smOuter] at h
    injection h with h
    subst h
    exact hacc
  | cons location rest ih =>
    intro acc out h hacc
    simp only [smOuter] at h
    split at h
    · exact absurd h (by simp)
    · rename_i ts _
      simp only [bind, Except.bind] at h
      cases h1 : smInner b state location ts acc with
      | error e => rw [h1] at h; exact absurd h (by simp)
      | ok acc2 =>
        rw [h1] at h
        exact ih h (smInner_card h1 hacc)

/-- Every state returned by `moves` of `solver.py` has exactly one peg
fewer than the input state. -/
lemma solverMoves_card {b : Board} {state : State} {l : List State}
    (h : solverMoves state b = .ok l) :
    ∀ ns ∈ l, ns.card + 1 = state.card :=
  smOuter_card h (by simp)

/-- C3: for every state and topology, every Step (equivalently, successor
state) produced by the move generator — `Board.moves` of `board.py`
producing Steps, and `moves` of `solver.py` producing successor states —
has a final state whose cardinality is exactly the start state's
cardinality minus one. -/
theorem step_card_decreases :
    (∀ (b : Board) (state : State) (l : List Step), b.moves state = .ok l →
      ∀ s ∈ l, s.start_state = state ∧ s.final_state.card + 1 = state.card ∧
        s.final_state.card = state.card - 1) ∧
    (∀ (b : Board) (state : State) (l : List State), solverMoves state b = .ok l →
      ∀ ns ∈ l, ns.card + 1 = state.card ∧ ns.card = state.card - 1) := by
  constructor
  · intro b state l h s hs
    obtain ⟨move, dir, jump, hdm⟩ := moves_mem h s hs
    obtain ⟨hstart, hcard⟩ := do_move_card hdm
    exact ⟨hstart, hcard, by omega⟩
  · intro b state l h ns hns
    have hcard := solverMoves_card h ns hns
    exact ⟨hcard, by omega⟩

/-- Witness for C3 on the triangle board of scenario A. -/
theorem step_card_decreases_witness :
    (Step.final_state ⟨{0, 1}, 0, 1, 2, {2}⟩).card = ({0, 1} : State).card - 1 :=
  (step_card_decreases.1 triangleBoard {0, 1}
    [⟨{0, 1}, 0, 1, 2, {2}⟩, ⟨{0, 1}, 1, 0, 2, {2}⟩] (by decide)
    ⟨{0, 1}, 0, 1, 2, {2}⟩ (by simp)).2.2

/-- C4: every Step produced by `Board.moves` satisfies the four-part
`Step.validate` invariant of `step.py`: `move` and `jump` lie in the start
state, `land` does not; `move` and `jump` do not lie in the final state,
`land` does. -/
theorem moves_validate (b : Board) (state : State) (l : List Step)
    (h : b.moves state = .ok l) : ∀ s ∈ l, s.validate = true := by
  intro s hs
  obtain ⟨move, dir, jump, hdm⟩ := moves_mem h s hs
  obtain ⟨hstart, hmv, hjp, hmove, hjumpA, hland, hfinal⟩ := do_move_ok_some hdm
  subst hmv
  subst hjp
  subst hstart
  have hjump : s.jump ∈ s.start_state := Finset.mem_of_mem_erase hjumpA
  have hmls : s.move ≠ s.land := fun hc => hland (hc ▸ hmove)
  have hjls : s.jump ≠ s.land := fun hc => hland (hc ▸ hjump)
  have hmf : s.move ∉ s.final_state := by
    simp [hfinal, Finset.mem_erase, hmls]
  have hjf : s.jump ∉ s.final_state := by
    simp [hfinal, Finset.mem_erase, hjls]
  have hlf : s.land ∈ s.final_state := by
    rw [hfinal]
    exact Finset.mem_insert_self _ _
  simp only [Step.validate, Bool.and_eq_true, decide_eq_true_eq,
    Bool.not_eq_true', decide_eq_false_iff_not]
  exact ⟨⟨⟨hmove, hjump⟩, hland⟩, ⟨hmf, hjf⟩, hlf⟩

/-- Witness for C4 on the triangle board of scenario A. -/
theorem moves_validate_witness :
    Step.validate ⟨{0, 1}, 1, 0, 2, {2}⟩ = true :=
  moves_validate triangleBoard {0, 1}
    [⟨{0, 1}, 0, 1, 2, {2}⟩, ⟨{0, 1}, 1, 0, 2, {2}⟩] (by decide)
    ⟨{0, 1}, 1, 0, 2, {2}⟩ (by simp)

/-- A `(dir, jump)` pair is eligible for `move` exactly when `do_move`
produces a `Step` for it (rather than filtering it out or raising). -/
def eligible (b : Board) (state : State) (move : ℕ) (p : ℕ × ℕ) : Bool :=
  match b.do_move state move p.1 p.2 with
  | .ok (some _) => true
  | _ => false

/-- The number of eligible `(move, dir, jump)` triples of a state: one per
`Step` the generator should emit if none are de-duplicated. -/
def eligibleSteps (b : Board) (state : State) : ℕ :=
  (state.iter.map (fun move =>
    match b.transitions.lookup move with
    | none => 0
    | some ts => (ts.filter (eligible b state move)).length)).sum

/-- A successful `movesInner` run keeps one entry per eligible pair. -/
lemma movesInner_length {b : Board} {state : State} {move : ℕ} :
    ∀ {ts : List (ℕ × ℕ)} {ol : List (Option Step)},
      movesInner b state move ts = .ok ol →
      (ol.filterMap id).length = (ts.filter (eligible b state move)).length := by
  intro ts
  induction ts with
  | nil =>
    intro ol h
    simp only [movesInner] at h
    injection h with h
    subst h
    simp
  | cons p rest ih =>
    intro ol h
    obtain ⟨dir, jump⟩ := p
    simp only [movesInner, bind, Except.bind] at h
    cases hdm : b.do_move state move dir jump with
    | error e => rw [hdm] at h; exact absurd h (by simp)
    | ok o =>
      rw [hdm] at h
      cases hrec : movesInner b state move rest with
      | error e => rw [hrec] at h; exact absurd h (by simp)
      | ok l =>
        rw [hrec] at h
        simp only [pure, Except.pure] at h
        injection h with h
        subst h
        cases o with
        | none =>
          have hel : eligible b state move (dir, jump) = false := by
            simp [eligible, hdm]
          simp [List.filter_cons, hel, ih hrec]
        | some s =>
          have hel : eligible b state move (dir, jump) = true := by
            simp [eligible, hdm]
          simp [List.filter_cons, hel, ih hrec]

/-- A successful `movesOuter` run keeps one entry per eligible triple. -/
lemma movesOuter_length {b : Board} {state : State} :
    ∀ {locs : List ℕ} {ol : List (Option Step)},
      movesOuter b state locs = .ok ol →
      (ol.filterMap id).length = (locs.map (fun move =>
        match b.transitions.lookup move with
        | none => 0
        | some ts => (ts.filter (eligible b state move)).length)).sum := by
  intro locs
  induction locs with
  | nil =>
    intro ol h
    simp only [movesOuter] at h
    injection h with h
    subst h
    simp
  | cons move rest ih =>
    intro ol h
    simp only [movesOuter] at h
    cases hlk : b.transitions.lookup move with
    | none => rw [hlk] at h; exact absurd h (by simp)
    | some ts =>
      rw [hlk] at h
      simp only [bind, Except.bind] at h
      cases h1 : movesInner b state move ts with
      | error e => rw [h1] at h; exact absurd h (by simp)
      | ok l1 =>
        rw [h1] at h
        cases h2 : movesOuter b state rest with
        | error e => rw [h2] at h; exact absurd h (by simp)
        | ok l2 =>
          rw [h2] at h
          simp only [pure, Except.pure] at h
          injection h with h
          subst h
          simp only [List.filterMap_append, List.length_append, List.map_cons,
            List.sum_cons, movesInner_length h1, ih h2, hlk]

/-- C1: on the triangle topology, `Board.moves` from `{0, 1}` returns
exactly two Steps, distinct as Steps yet both with final state `{2}`; and
in general a successful `Board.moves` run returns one Step per eligible
`(move, dir, jump)` triple — duplicate final states are retained as
distinct Steps, never de-duplicated. -/
theorem moves_retains_duplicates :
    (triangleBoard.moves {0, 1} =
        .ok [⟨{0, 1}, 0, 1, 2, {2}⟩, ⟨{0, 1}, 1, 0, 2, {2}⟩] ∧
      (⟨{0, 1}, 0, 1, 2, {2}⟩ : Step) ≠ ⟨{0, 1}, 1, 0, 2, {2}⟩ ∧
      (⟨{0, 1}, 0, 1, 2, {2}⟩ : Step).final_state =
        (⟨{0, 1}, 1, 0, 2, {2}⟩ : Step).final_state) ∧
    ∀ (b : Board) (state : State) (l : List Step), b.moves state = .ok l →
      l.length = eligibleSteps b state := by
  refine ⟨by decide, ?_⟩
  intro b state l h
  unfold Board.moves at h
  cases ho : movesOuter b state state.iter with
  | error e => rw [ho] at h; exact absurd h (by simp [Except.map])
  | ok ol =>
    rw [ho] at h
    simp only [Except.map] at h
    injection h with h
    subst h
    exact movesOuter_length ho

/-- Witness for C1: the triangle scenario instantiates the general
no-de-duplication count. -/
theorem moves_retains_duplicates_witness :
    ([⟨{0, 1}, 0, 1, 2, {2}⟩, (⟨{0, 1}, 1, 0, 2, {2}⟩ : Step)].length)
      = eligibleSteps triangleBoard {0, 1} :=
  moves_retains_duplicates.2 triangleBoard {0, 1} _ (by decide)

/-- Counterexample for C2: on the square board, start `{0, 1, 2}`, exact
goal `{1}`, depth-first, scope multiple, `min_pegs = 1` (the value
`solve` derives for a Position goal), the search terminates normally with
2 solutions, not the 4 the claim asserts. -/
theorem scenario_b_counterexample :
    Except.map List.length (solve_executive squareBoard {0, 1, 2}
        pick_next_depth_first (fun p => check_solution_state p {1})
        SolutionScope.multiple 1 32) = .ok 2 ∧
    Except.map List.length (solve_executive squareBoard {0, 1, 2}
        pick_next_depth_first (fun p => check_solution_state p {1})
        SolutionScope.multiple 1 32) ≠ .ok 4 := by decide

/-- C2 amended: the depth-first multiple-scope search on the square board
for exact goal `{1}` returns exactly 2 solution Paths, each of 2 Steps
(three states: start, intermediate, final), both ending at `{1}`. -/
theorem scenario_b_two_solutions :
    solve_executive squareBoard {0, 1, 2} pick_next_depth_first
        (fun p => check_solution_state p {1}) SolutionScope.multiple 1 32 =
      .ok [[{0, 1, 2}, {2, 3}, {1}], [{0, 1, 2}, {0, 3}, {1}]] ∧
    ∀ sol ∈ [[({0, 1, 2} : State), {2, 3}, {1}], [{0, 1, 2}, {0, 3}, {1}]],
      sol.length = 3 ∧ sol.getLast? = some ({1} : State) := by decide

/-- C5 (code bug evidence): `Board.direction` raises `TypeError` on every
input because the source iterates `range(self.direction)` — the bound
method — instead of `range(self.directions)`; on the triangle board the
spec-modelled behaviour would return direction 0 for the pair (0, 1). -/
theorem direction_raises_typeError :
    triangleBoard.direction 0 1 = .error PyError.typeError ∧
    directionSpec triangleBoard 0 1 = some 0 ∧
    ∀ (b : Board) (x y : ℕ), b.direction x y = .error PyError.typeError :=
  ⟨by decide, by decide, fun _ _ _ => rfl⟩

/-- Counterexample for C6: on the triangle board the pair (node 0,
direction 5) has no edge, and `transit` fails — but with the built-in
`KeyError` of the `dict` subscript, not with a distinct `InvalidTransition`
error (no such class exists in the repository). -/
theorem transit_counterexample :
    triangleBoard.transit 0 5 = .error PyError.keyError ∧
    triangleBoard.transit 0 5 ≠ .error PyError.invalidTransition := by decide

/-- Well-formedness of a board's transition table: outer node keys are
unique and each node's direction keys are unique — automatic for tables
built from Python dicts, whose keys cannot repeat. -/
def Board.WF (b : Board) : Prop :=
  (b.transitions.map Prod.fst).Nodup ∧
    ∀ p ∈ b.transitions, (p.2.map Prod.fst).Nodup

/-- The spec's "an edge exists for that (node, direction) pair". -/
def Board.hasEdge (b : Board) (node direction : ℕ) : Prop :=
  ∃ ts dest, (node, ts) ∈ b.transitions ∧ (direction, dest) ∈ ts

/-- C6 amended: for a well-formed board, `transit` fails — with the
built-in `KeyError`, not a distinct `InvalidTransition` — exactly when no
edge exists for the (node, direction) pair, and returns the destination
node otherwise. -/
theorem transit_keyError_iff (b : Board) (hwf : b.WF) (node direction : ℕ) :
    (b.transit node direction = .error PyError.keyError ↔
      ¬ b.hasEdge node direction) ∧
    ∀ ts dest, (node, ts) ∈ b.transitions → (direction, dest) ∈ ts →
      b.transit node direction = .ok dest := by
  have hok : ∀ ts dest, (node, ts) ∈ b.transitions → (direction, dest) ∈ ts →
      b.transit node direction = .ok dest := by
    intro ts dest h1 h2
    have hnd2 : (List.map Prod.fst ts).Nodup := hwf.2 (node, ts) h1
    unfold Board.transit
    simp only [lookup_eq_some_of_mem hwf.1 h1, lookup_eq_some_of_mem hnd2 h2]
  refine ⟨⟨?_, ?_⟩, hok⟩
  · intro herr hedge
    obtain ⟨ts, dest, h1, h2⟩ := hedge
    rw [hok ts dest h1 h2] at herr
    exact absurd herr (by simp)
  · intro hno
    unfold Board.transit
    cases h1 : b.transitions.lookup node with
    | none => rfl
    | some ts =>
      cases h2 : ts.lookup direction with
      | none => simp only [h2]
      | some dest =>
        exact absurd ⟨ts, dest, mem_of_lookup_eq_some h1,
          mem_of_lookup_eq_some h2⟩ hno

/-- Witness for C6 amended, on the triangle board: the well-formedness
hypothesis is discharged by computation and both conclusions are
instantiated. -/
theorem transit_keyError_iff_witness :
    (triangleBoard.transit 0 5 = .error PyError.keyError ↔
      ¬ triangleBoard.hasEdge 0 5) ∧
    ∀ ts dest, (0, ts) ∈ triangleBoard.transitions → (5, dest) ∈ ts →
      triangleBoard.transit 0 5 = .ok dest :=
  transit_keyError_iff triangleBoard (by constructor <;> decide) 0 5

/-- C7: on every non-empty candidate list, each pick strategy returns a
`(selected, remainder)` pair with the remainder one shorter and
`{selected} ∪ remainder` equal to the input as a multiset; depth-first
selects the most recently added Path (the last element — candidates are
appended at the end by `extend`), breadth-first the least recently added
(the first element). -/
theorem pick_partition (candidates : List Path) (h : candidates ≠ []) :
    (∃ sel rem, pick_next_depth_first candidates = some (sel, rem) ∧
      rem.length = candidates.length - 1 ∧
      (sel ::ₘ (rem : Multiset Path)) = (candidates : Multiset Path) ∧
      candidates.getLast? = some sel) ∧
    (∃ sel rem, pick_next_breadth_first candidates = some (sel, rem) ∧
      rem.length = candidates.length - 1 ∧
      (sel ::ₘ (rem : Multiset Path)) = (candidates : Multiset Path) ∧
      candidates.head? = some sel) := by
  constructor
  · refine ⟨candidates.getLast h, candidates.dropLast, ?_, ?_, ?_, ?_⟩
    · simp [pick_next_depth_first, List.getLast?_eq_getLast candidates h]
    · simp
    · have hperm : (candidates.getLast h :: candidates.dropLast).Perm candidates := by
        conv_rhs => rw [← List.dropLast_append_getLast h]
        exact (List.perm_append_singleton _ _).symm
      calc candidates.getLast h ::ₘ (candidates.dropLast : Multiset Path)
          = ((candidates.getLast h :: candidates.dropLast : List Path) :
              Multiset Path) := by simp
        _ = (candidates : Multiset Path) := Multiset.coe_eq_coe.mpr hperm
    · exact List.getLast?_eq_getLast candidates h
  · obtain ⟨hd, tl, rfl⟩ := List.exists_cons_of_ne_nil h
    exact ⟨hd, tl, rfl, by simp, by simp, rfl⟩

/-- Witness for C7 on a concrete two-element candidate list. -/
theorem pick_partition_witness :
    (∃ sel rem, pick_next_depth_first [[({0} : State)], [{1}]] = some (sel, rem) ∧
      rem.length = [[({0} : State)], [{1}]].length - 1 ∧
      (sel ::ₘ (rem : Multiset Path)) = ([[({0} : State)], [{1}]] : Multiset Path) ∧
      ([[({0} : State)], [{1}]] : List Path).getLast? = some sel) ∧
    (∃ sel rem, pick_next_breadth_first [[({0} : State)], [{1}]] = some (sel, rem) ∧
      rem.length = [[({0} : State)], [{1}]].length - 1 ∧
      (sel ::ₘ (rem : Multiset Path)) = ([[({0} : State)], [{1}]] : Multiset Path) ∧
      ([[({0} : State)], [{1}]] : List Path).head? = some sel) :=
  pick_partition [[({0} : State)], [{1}]] (by simp)

/-- Running the search loop with a non-empty `solutions` accumulator just
prefixes the accumulator to what the loop finds from an empty one: the
loop only ever appends to `solutions` and never reads it. -/
lemma solveLoop_acc (b : Board) (picker : Picker) (checker : Checker)
    (scope : SolutionScope) (min_pegs : ℕ) :
    ∀ (fuel : ℕ) (cands sols : List Path),
      solveLoop b picker checker scope min_pegs fuel cands sols =
        Except.map (fun out => sols ++ out)
          (solveLoop b picker checker scope min_pegs fuel cands []) := by
  intro fuel
  induction fuel with
  | zero =>
    intro cands sols
    cases cands with
    | nil => simp [solveLoop, Except.map]
    | cons c cs => simp [solveLoop, Except.map]
  | succ fuel ih =>
    intro cands sols
    cases cands with
    | nil => simp [solveLoop, Except.map]
    | cons c cs =>
      simp only [solveLoop]
      cases hpk : picker (c :: cs) with
      | none => simp [Except.map]
      | some pr =>
        obtain ⟨next, rest⟩ := pr
        cases hgl : next.getLast? with
        | none => simp [hgl, Except.map]
        | some fin =>
          try simp only [hgl]
          by_cases hlt : fin.card < min_pegs
          · simp only [if_pos hlt]
            exact ih rest sols
          · simp only [if_neg hlt]
            cases hch : checker next with
            | error e => simp [hch, Except.map]
            | ok bv =>
              try simp only [hch]
              cases bv with
              | false =>
                cases hnp : next_paths next b with
                | error e => simp [hnp, Except.map]
                | ok exps =>
                  try simp only [hnp]
                  exact ih (rest ++ exps) sols
              | true =>
                by_cases hsc : scope = SolutionScope.single
                · simp [if_pos hsc, Except.map]
                · simp only [if_neg hsc]
                  have h1 := ih rest (sols ++ [next])
                  have h2 := ih rest [next]
                  cases hres : solveLoop b picker checker scope min_pegs fuel rest []
                    with
                  | error e =>
                    rw [hres] at h1 h2
                    simp only [Except.map] at h1 h2
                    simp [h1, h2, Except.map]
                  | ok out =>
                    rw [hres] at h1 h2
                    simp only [Except.map] at h1 h2
                    simp [h1, h2, Except.map]

/-- In multiple scope the loop finds its solutions in discovery order; in
single scope it stops at the first.  Hence a completed multiple-scope run
determines the single-scope run: the latter returns the one-element prefix
of the former (empty when no solution exists). -/
lemma solveLoop_single_take (b : Board) (picker : Picker) (checker : Checker)
    (min_pegs : ℕ) :
    ∀ (fuel : ℕ) (cands out : List Path),
      solveLoop b picker checker SolutionScope.multiple min_pegs fuel cands [] =
        .ok out →
      solveLoop b picker checker SolutionScope.single min_pegs fuel cands [] =
        .ok (List.take 1 out) := by
  intro fuel
  induction fuel with
  | zero =>
    intro cands out h
    cases cands with
    | nil =>
      simp only [solveLoop] at h ⊢
      injection h with h
      subst h
      rfl
    | cons c cs => exact absurd h (by simp [solveLoop])
  | succ fuel ih =>
    intro cands out h
    cases cands with
    | nil =>
      simp only [solveLoop] at h ⊢
      injection h with h
      subst h
      rfl
    | cons c cs =>
      simp only [solveLoop] at h ⊢
      cases hpk : picker (c :: cs) with
      | none =>
        try simp only [hpk] at h
        exact absurd h (by simp)
      | some pr =>
        obtain ⟨next, rest⟩ := pr
        try simp only [hpk] at h ⊢
        cases hgl : next.getLast? with
        | none =>
          try simp only [hgl] at h
          exact absurd h (by simp)
        | some fin =>
          try simp only [hgl] at h ⊢
          by_cases hlt : fin.card < min_pegs
          · try simp only [if_pos hlt] at h ⊢
            exact ih rest out h
          · try simp only [if_neg hlt] at h ⊢
            cases hch : checker next with
            | error e =>
              try simp only [hch] at h
              exact absurd h (by simp)
            | ok bv =>
              try simp only [hch] at h ⊢
              cases bv with
              | false =>
                cases hnp : next_paths next b with
                | error e =>
                  try simp only [hnp] at h
                  exact absurd h (by simp)
                | ok exps =>
                  try simp only [hnp] at h ⊢
                  exact ih (rest ++ exps) out h
              | true =>
                have hacc := solveLoop_acc b picker checker
                  SolutionScope.multiple min_pegs fuel rest ([] ++ [next])
                rw [hacc] at h
                cases hres : solveLoop b picker checker SolutionScope.multiple
                    min_pegs fuel rest [] with
                | error e =>
                  rw [hres] at h
                  exact absurd h (by simp [Except.map])
                | ok out0 =>
                  rw [hres] at h
                  simp only [Except.map, List.nil_append] at h
                  injection h with h
                  subst h
                  simp

/-- C8: for every board, start state, picker, checker and `min_pegs`, if
the multiple-scope search terminates normally with solution list `out`,
the single-scope search (same inputs, same fuel) terminates normally with
`out.take 1` — the one-element list holding the first solution in
discovery order when `out` is non-empty, and the empty list when `out` is
empty. -/
theorem scope_consistency (b : Board) (start : State) (picker : Picker)
    (checker : Checker) (min_pegs fuel : ℕ) (out : List Path)
    (h : solve_executive b start picker checker SolutionScope.multiple min_pegs
      fuel = .ok out) :
    solve_executive b start picker checker SolutionScope.single min_pegs fuel =
      .ok (List.take 1 out) := by
  unfold solve_executive at h ⊢
  cases hnp : next_paths [start] b with
  | error e =>
    try simp only [hnp] at h
    exact absurd h (by simp)
  | ok cands =>
    try simp only [hnp] at h ⊢
    exact solveLoop_single_take b picker checker min_pegs fuel cands out h

/-- Witness for C8: the concrete scenario-B multiple-scope run has two
solutions, and the single-scope run returns exactly the first one. -/
theorem scope_consistency_witness :
    solve_executive squareBoard {0, 1, 2} pick_next_depth_first
        (fun p => check_solution_state p {1}) SolutionScope.single 1 32 =
      .ok (List.take 1
        [[({0, 1, 2} : State), {2, 3}, {1}], [{0, 1, 2}, {0, 3}, {1}]]) :=
  scope_consistency squareBoard {0, 1, 2} pick_next_depth_first
    (fun p => check_solution_state p {1}) 1 32
    [[({0, 1, 2} : State), {2, 3}, {1}], [{0, 1, 2}, {0, 3}, {1}]] (by decide)

/-- Reachability by repeated expansion: `Reaches b p q` holds when `q` is
obtained from `p` by finitely many successful `next_paths` expansions. -/
inductive Reaches (b : Board) : Path → Path → Prop where
  | refl (p : Path) : Reaches b p p
  | expand {p q r : Path} {l : List Path} : Reaches b p q →
      next_paths q b = .ok l → r ∈ l → Reaches b p r

/-- Characterisation of a path produced by one `next_paths` expansion: it
extends the parent by one state holding exactly one peg fewer than the
parent's final state. -/
lemma next_paths_spec {b : Board} {p q : Path} {l : List Path}
    (h : next_paths p b = .ok l) (hq : q ∈ l) :
    ∃ st ns, p.getLast? = some st ∧ q = p ++ [ns] ∧ ns.card + 1 = st.card := by
  unfold next_paths at h
  cases hgl : p.getLast? with
  | none =>
    try simp only [hgl] at h
    exact absurd h (by simp)
  | some st =>
    try simp only [hgl] at h
    cases hm : solverMoves st b with
    | error e =>
      try simp only [hm] at h
      exact absurd h (by simp)
    | ok ms =>
      try simp only [hm] at h
      injection h with h
      subst h
      obtain ⟨ns, hns, rfl⟩ := List.mem_map.mp hq
      exact ⟨st, ns, rfl, rfl, solverMoves_card hm ns hns⟩

/-- Along any chain of expansions the final state's cardinality never
increases (each step strictly decreases it by one). -/
lemma reaches_last_card {b : Board} {p q : Path} (h : Reaches b p q) :
    ∀ fin, p.getLast? = some fin →
      ∃ fin2, q.getLast? = some fin2 ∧ fin2.card ≤ fin.card := by
  induction h with
  | refl => exact fun fin hf => ⟨fin, hf, le_refl _⟩
  | expand hpq hl hr ih =>
    intro fin hf
    obtain ⟨fin2, hq2, hle⟩ := ih fin hf
    obtain ⟨st, ns, hst, rfl, hcard⟩ := next_paths_spec hl hr
    rw [hq2] at hst
    injection hst with hst
    subst hst
    refine ⟨ns, ?_, by omega⟩
    simp [List.getLast?_concat]

/-- C9: the executive discards a picked path whose final state is smaller
than `min_pegs` without expanding it (the loop step is exactly the loop on
the remaining candidates), and the pruning is sound: when `min_pegs`
equals the Position target's cardinality or the Count target count, no
path reachable from the discarded path by further expansion can satisfy
the corresponding checker, because each Step removes exactly one peg. -/
theorem prune_sound :
    (∀ (b : Board) (picker : Picker) (checker : Checker) (scope : SolutionScope)
        (min_pegs fuel : ℕ) (cands sols : List Path) (next : Path)
        (rest : List Path) (fin : State),
        cands ≠ [] → picker cands = some (next, rest) →
        next.getLast? = some fin → fin.card < min_pegs →
        solveLoop b picker checker scope min_pegs (fuel + 1) cands sols =
          solveLoop b picker checker scope min_pegs fuel rest sols) ∧
    (∀ (b : Board) (next p2 : Path) (fin : State) (min_pegs : ℕ),
        next.getLast? = some fin → fin.card < min_pegs → Reaches b next p2 →
        (∀ finish : State, min_pegs = finish.card →
          check_solution_state p2 finish = .ok false) ∧
        (∀ cnt : ℕ, min_pegs = cnt → check_solution_count p2 b cnt = .ok false)) := by
  constructor
  · intro b picker checker scope min_pegs fuel cands sols next rest fin
      hcands hpick hlast hlt
    cases cands with
    | nil => exact absurd rfl hcands
    | cons c cs => simp only [solveLoop, hpick, hlast, if_pos hlt]
  · intro b next p2 fin min_pegs hlast hlt hreach
    obtain ⟨fin2, hlast2, hle⟩ := reaches_last_card hreach fin hlast
    constructor
    · intro finish hmp
      have hne : fin2 ≠ finish := by
        intro hc
        rw [hc] at hle
        omega
      unfold check_solution_state
      try simp only [hlast2]
      simp [hne]
    · intro cnt hmp
      have hne : fin2.card ≠ cnt := by omega
      unfold check_solution_count
      try simp only [hlast2]
      simp [hne]

/-- Witness for C9: a pruned one-step loop equation and the failure of the
Position checker on a concrete discarded path. -/
theorem prune_sound_witness :
    solveLoop triangleBoard pick_next_depth_first
        (fun p => check_solution_state p {1, 2}) SolutionScope.multiple 2 1
        [[{2}]] [] =
      solveLoop triangleBoard pick_next_depth_first
        (fun p => check_solution_state p {1, 2}) SolutionScope.multiple 2 0
        [] [] ∧
    check_solution_state [({2} : State)] {1, 2} = .ok false :=
  ⟨prune_sound.1 triangleBoard pick_next_depth_first
      (fun p => check_solution_state p {1, 2}) SolutionScope.multiple 2 0
      [[{2}]] [] [{2}] [] {2} (by simp) (by decide) (by decide) (by decide),
    (prune_sound.2 triangleBoard [{2}] [{2}] {2} 2 (by decide) (by decide)
      (Reaches.refl [{2}])).1 {1, 2} (by decide)⟩


/-- C10: the loop invokes the picker only on non-empty candidate lists —
its result does not depend on the picker's value at `[]` — and on every
non-empty list the two shipped pickers succeed (so `candidates[-1]` and
`candidates[0]` are always in bounds during a search). -/
theorem picker_guard :
    (∀ l : List Path, l ≠ [] →
      (pick_next_depth_first l).isSome ∧ (pick_next_breadth_first l).isSome) ∧
    (∀ (b : Board) (checker : Checker) (scope : SolutionScope) (min_pegs : ℕ)
        (p q : Picker), (∀ l, l ≠ [] → p l = q l) →
        ∀ (fuel : ℕ) (cands sols : List Path),
          solveLoop b p checker scope min_pegs fuel cands sols =
            solveLoop b q checker scope min_pegs fuel cands sols) := by
  constructor
  · intro l hl
    constructor
    · unfold pick_next_depth_first
      cases hg : l.getLast? with
      | none => exact absurd (List.getLast?_eq_none_iff.mp hg) hl
      | some pth => simp
    · unfold pick_next_breadth_first
      cases l with
      | nil => exact absurd rfl hl
      | cons c cs => simp
  · intro b checker scope min_pegs p q hagree fuel
    induction fuel with
    | zero =>
      intro cands sols
      cases cands with
      | nil => rfl
      | cons c cs => rfl
    | succ fuel ih =>
      intro cands sols
      cases cands with
      | nil => rfl
      | cons c cs =>
        simp only [solveLoop, hagree (c :: cs) (by simp)]
        cases hpk : q (c :: cs) with
        | none => rfl
        | some pr =>
          obtain ⟨next, rest⟩ := pr
          try simp only [hpk]
          cases hgl : next.getLast? with
          | none => rfl
          | some fin =>
            try simp only [hgl]
            by_cases hlt : fin.card < min_pegs
            · try simp only [if_pos hlt]
              exact ih rest sols
            · try simp only [if_neg hlt]
              cases hch : checker next with
              | error e => rfl
              | ok bv =>
                try simp only [hch]
                cases bv with
                | false =>
                  cases hnp : next_paths next b with
                  | error e => rfl
                  | ok exps =>
                    try simp only [hnp]
                    exact ih (rest ++ exps) sols
                | true =>
                  by_cases hsc : scope = SolutionScope.single
                  · simp [if_pos hsc]
                  · try simp only [if_neg hsc]
                    exact ih rest (sols ++ [next])

/-- Witness for C10: both pickers succeed on a concrete non-empty list,
and the loop result is unchanged when the picker is replaced by one that
differs only at the empty list. -/
theorem picker_guard_witness :
    ((pick_next_depth_first [[(∅ : State)]]).isSome ∧
      (pick_next_breadth_first [[(∅ : State)]]).isSome) ∧
    solveLoop triangleBoard pick_next_depth_first
        (fun p => check_solution_state p {2}) SolutionScope.single 1 2
        [[{2}]] [] =
      solveLoop triangleBoard
        (fun l => if l = [] then some ([], []) else pick_next_depth_first l)
        (fun p => check_solution_state p {2}) SolutionScope.single 1 2
        [[{2}]] [] :=
  ⟨picker_guard.1 [[(∅ : State)]] (by simp),
    picker_guard.2 triangleBoard (fun p => check_solution_state p {2})
      SolutionScope.single 1 pick_next_depth_first
      (fun l => if l = [] then some ([], []) else pick_next_depth_first l)
      (fun l hl => (if_neg hl).symm) 2 [[{2}]] []⟩


end Jump

